import Mathlib

/-!
# Verification of the knowledge-graph engine

Shallow embedding of the `KnowledgeGraphService` class from
`src/services/DataviewService.ts`, together with proofs about the graph
builder, link resolver, traversal engine, graph analyzer and relatedness
scorer.

Modelling conventions:
* A snapshot (the `Map<string, Note>` filled by `updateNotes`) is a
  `List Note`; JS `Map` iteration order is insertion order, lookups are
  `find?` on the `path` field.  The engine's own invariant is that paths
  are unique; theorems that depend on it take a `Nodup` hypothesis.
* Optional JS fields (`tags`, `links`, `backlinks` may be `undefined`)
  are lists, with `[]` for the absent case: every use in the source
  (`if (note.links) ...`, `note.links?.length || 0`) treats `undefined`
  exactly like the empty collection.
* The unbounded `while` loop of `findPath` and the depth-bounded
  recursion of `getRelatedNotes` are written with an explicit fuel
  argument; the fuel chosen in the wrappers is proved (resp. evident)
  to be large enough that it never runs out.
-/

namespace KG

/-- The `Link.type` union `'internal' | 'embed' | 'external'` from
`src/types/index.ts`. -/
inductive LinkType where
  | internal
  | embed
  | external
deriving Repr, DecidableEq

/-- The string a `LinkType` denotes (what `buildGraph` stores into
`GraphEdge.type`). -/
def LinkType.str : LinkType → String
  | .internal => "internal"
  | .embed => "embed"
  | .external => "external"

/-- A link record, from `src/types/index.ts` (`Link`). -/
structure Link where
  source : String
  target : String
  type : LinkType
deriving Repr, DecidableEq

/-- A note, from `src/types/index.ts` (`Note`); frontmatter and dates are
irrelevant to the graph engine and omitted. -/
structure Note where
  path : String
  title : String
  content : String
  tags : List String
  links : List Link
  backlinks : List Link
deriving Repr, DecidableEq

/-- The engine's note snapshot (`this.notes`), in iteration order. -/
abbrev Snapshot := List Note

/-- `this.notes.get(p)`. -/
def lookupNote (s : Snapshot) (p : String) : Option Note :=
  s.find? (fun n => n.path == p)

/-- Kind of a graph node (`GraphNode.type`). -/
inductive NodeType where
  | note
  | tag
  | folder
deriving Repr, DecidableEq

/-- The `metadata` bag attached to note nodes by `buildGraph`
(`{tags, wordCount: content.length, linkCount: links.length}`). -/
structure NodeMeta where
  tags : List String
  wordCount : Nat
  linkCount : Nat
deriving Repr, DecidableEq

/-- Graph node, from `src/types/index.ts` (`GraphNode`). -/
structure GraphNode where
  id : String
  title : String
  type : NodeType
  metadata : Option NodeMeta := none
deriving Repr, DecidableEq

/-- Graph edge, from `src/types/index.ts` (`GraphEdge`). -/
structure GraphEdge where
  source : String
  target : String
  type : String
  weight : Nat
deriving Repr, DecidableEq

/-- `KnowledgeGraph` from `src/types/index.ts`. -/
structure KnowledgeGraph where
  nodes : List GraphNode
  edges : List GraphEdge
deriving Repr, DecidableEq

/-- JS `String.prototype.endsWith`, as a suffix test on the character
sequences (the standard `String.endsWith` computes the same Bool). -/
def endsWithStr (s suffix : String) : Bool :=
  suffix.data.isSuffixOf s.data

/-- Split a character sequence at every character satisfying `f`,
keeping empty pieces (the semantics of splitting on single separator
characters). -/
def splitByChar (f : Char → Bool) : List Char → List (List Char)
  | [] => [[]]
  | x :: xs =>
    let r := splitByChar f xs
    if f x then [] :: r
    else
      match r with
      | [] => [[x]]
      | y :: ys => (x :: y) :: ys

/-- `getFolder`: `path.lastIndexOf('/')` is `-1` gives `"."`, otherwise
the substring before the last `/`.  Splitting at `/` and rejoining all
but the last segment computes exactly that substring. -/
def getFolder (path : String) : String :=
  let parts := (splitByChar (fun c => c == '/') path.data).map String.mk
  if parts.length = 1 then "." else String.intercalate "/" parts.dropLast

/-- `resolveNotePath`: append `.md` if absent; exact path match wins;
otherwise the first note matching by title or by path suffix; otherwise
the normalized target itself. -/
def resolveNotePath (s : Snapshot) (linkTarget : String) : String :=
  let normalized := if endsWithStr linkTarget ".md" then linkTarget else linkTarget ++ ".md"
  if s.any (fun n => n.path == normalized) then normalized
  else
    match s.find? (fun n => n.title == linkTarget || endsWithStr n.path ("/" ++ normalized)) with
    | some n => n.path
    | none => normalized

/-- The resolved outgoing-link targets of the note stored at `p`
(empty when no note is stored there). -/
def adj (s : Snapshot) (p : String) : List String :=
  match lookupNote s p with
  | some n => n.links.map (fun l => resolveNotePath s l.target)
  | none => []

/-! ## Graph builder (`buildGraph`) -/

/-- Working state of the `buildGraph` loop: the `nodes` and `edges`
arrays plus the key sets of the `tagNodes` / `folderNodes` maps. -/
structure BuildState where
  nodes : List GraphNode
  edges : List GraphEdge
  tagSeen : List String
  folderSeen : List String
deriving Repr

/-- The note node pushed for `note`. -/
def noteNode (note : Note) : GraphNode :=
  { id := note.path, title := note.title, type := NodeType.note
    metadata := some ⟨note.tags, note.content.length, note.links.length⟩ }

/-- The `for (const tag of note.tags)` loop body of `buildGraph`:
create the tag node on first sight, then push the `tagged-with` edge. -/
def addTagStep (notePath : String) (st : BuildState) (tag : String) : BuildState :=
  let st' :=
    if st.tagSeen.contains tag then st
    else { st with
            nodes := st.nodes ++ [{ id := "tag:" ++ tag, title := tag, type := NodeType.tag }]
            tagSeen := st.tagSeen ++ [tag] }
  { st' with
     edges := st'.edges ++
       [{ source := notePath, target := "tag:" ++ tag, type := "tagged-with", weight := 1 }] }

/-- The whole `for (const tag of note.tags)` loop of `buildGraph`. -/
def addTagEdges (notePath : String) (tags : List String) (st : BuildState) : BuildState :=
  tags.foldl (addTagStep notePath) st

/-- One iteration of the `for (const note of this.notes.values())` loop
of `buildGraph`: note node, link edges, tag nodes/edges, folder
node/edge. -/
def buildStep (s : Snapshot) (st : BuildState) (note : Note) : BuildState :=
  let st : BuildState := { st with nodes := st.nodes ++ [noteNode note] }
  let st : BuildState :=
    { st with
       edges := st.edges ++ note.links.map (fun link =>
         { source := note.path, target := resolveNotePath s link.target
           type := link.type.str, weight := 1 }) }
  let st := addTagEdges note.path note.tags st
  let folder := getFolder note.path
  if folder ≠ "" ∧ folder ≠ "." then
    let st' :=
      if st.folderSeen.contains folder then st
      else { st with
              nodes := st.nodes ++
                [{ id := "folder:" ++ folder, title := folder, type := NodeType.folder }]
              folderSeen := st.folderSeen ++ [folder] }
    { st' with
       edges := st'.edges ++
         [{ source := note.path, target := "folder:" ++ folder, type := "in-folder", weight := 1 }] }
  else st

/-- `buildGraph()`. -/
def buildGraph (s : Snapshot) : KnowledgeGraph :=
  let st := s.foldl (buildStep s) ⟨[], [], [], []⟩
  { nodes := st.nodes, edges := st.edges }

/-! ## Traversal engine (`getRelatedNotes`, `findPath`) -/

/-- The inner `traverse(path, depth)` closure of `getRelatedNotes`.
State is the pair (`related`, `visited`), each an insertion-ordered
duplicate-free list.  `gas` is fuel for Lean's termination checker; the
wrapper passes `maxDepth + 1`, which never runs out because each
recursive call increases `depth` and the `maxDepth < depth` guard
stops the recursion (when `gas` hits `0` the guard has already become
true, so returning the state unchanged agrees with the source). -/
def traverse (s : Snapshot) (maxDepth : Nat) :
    Nat → Nat → String → List String × List String → List String × List String
  | 0, _, _, st => st
  | gas + 1, depth, path, (related, visited) =>
    if maxDepth < depth ∨ path ∈ visited then (related, visited)
    else
      let visited' := visited ++ [path]
      match lookupNote s path with
      | none => (related, visited')
      | some note =>
        let related' := if 0 < depth then related ++ [path] else related
        let children :=
          note.links.map (fun l => resolveNotePath s l.target) ++
            note.backlinks.map (fun b => b.source)
        children.foldl (fun st c => traverse s maxDepth gas (depth + 1) c st) (related', visited')

/-- `getRelatedNotes(notePath, maxDepth)`: run the traversal from the
start note at depth `0`, then materialize the collected ids
(`Array.from(related).map(get).filter(defined)`). -/
def getRelatedNotes (s : Snapshot) (notePath : String) (maxDepth : Nat) : List Note :=
  ((traverse s maxDepth (maxDepth + 1) 0 notePath ([], [])).1).filterMap (lookupNote s)

/-- The `while (queue.length > 0)` loop of `findPath`, with fuel.
Each queue entry is a pair (`path`, `route`). -/
def bfsLoop (s : Snapshot) (toPath : String) :
    Nat → List (String × List String) → List String → Option (List String)
  | 0, _, _ => none
  | _ + 1, [], _ => none
  | fuel + 1, (path, route) :: rest, visited =>
    if path = toPath then some route
    else if path ∈ visited then bfsLoop s toPath fuel rest visited
    else
      let visited' := visited ++ [path]
      match lookupNote s path with
      | none => bfsLoop s toPath fuel rest visited'
      | some note =>
        let pushes := (note.links.map (fun l => resolveNotePath s l.target)).filter
          (fun t => !visited'.contains t)
        bfsLoop s toPath fuel (rest ++ pushes.map (fun t => (t, route ++ [t]))) visited'

/-- Fuel that provably outlasts the `findPath` loop: one unit for the
initial queue entry plus, for every distinct path in the snapshot, one
unit for its dequeue and one per link it can push. -/
def bfsFuel (s : Snapshot) : Nat :=
  (((s.map Note.path).dedup).map (fun p => 1 + (adj s p).length)).sum + 1

/-- `findPath(fromPath, toPath)`. -/
def findPath (s : Snapshot) (fromPath toPath : String) : Option (List String) :=
  bfsLoop s toPath (bfsFuel s) [(fromPath, [fromPath])] []

/-! ## Graph analyzer (`analyzeGraph`) -/

/-- `GraphAnalysis` (clusters, never set by the source, omitted). -/
structure GraphAnalysis where
  totalNodes : Nat
  totalEdges : Nat
  mostConnectedNodes : List (String × Nat)
  orphanNotes : List String
deriving Repr, DecidableEq

/-- `analyzeGraph()`: connection counts, orphans, top-10 by descending
connection count (`sort` in JS is stable, matching `mergeSort`), and
the node/edge totals of the built graph. -/
def analyzeGraph (s : Snapshot) : GraphAnalysis :=
  let connectionCounts := s.map (fun n => (n.path, n.links.length + n.backlinks.length))
  let orphans := (s.filter (fun n => n.links.length + n.backlinks.length == 0)).map Note.path
  let mostConnected := (connectionCounts.mergeSort (fun a b => decide (b.2 ≤ a.2))).take 10
  let graph := buildGraph s
  { totalNodes := (graph.nodes.filter (fun n => n.type == NodeType.note)).length
    totalEdges := graph.edges.length
    mostConnectedNodes := mostConnected
    orphanNotes := orphans }

/-! ## Relatedness scorer (`suggestRelatedNotes`) -/

/-- `title.toLowerCase().split(/\s+/)`.  Splitting at every whitespace
character differs from the regex split only by extra empty-string
tokens (inside runs of whitespace), which are discarded by every use
(the `word.length > 3` filter). -/
def titleWords (t : String) : List String :=
  (splitByChar Char.isWhitespace (t.data.map Char.toLower)).map String.mk

/-- `scores.set(p, (scores.get(p) || 0) + delta)` on an
insertion-ordered association list. -/
def bumpScore : List (String × Nat) → String → Nat → List (String × Nat)
  | [], p, delta => [(p, delta)]
  | e :: rest, p, delta =>
    if e.1 == p then (e.1, e.2 + delta) :: rest
    else e :: bumpScore rest p delta

/-- The keys of a score map. -/
def scoreKeys (sc : List (String × Nat)) : List String := sc.map Prod.fst

/-- `scores.get(q) || 0`. -/
def scoreOf (sc : List (String × Nat)) (q : String) : Nat :=
  ((sc.find? (fun e => e.1 == q)).map Prod.snd).getD 0

/-- Common shape of the three accumulation loop bodies of
`suggestRelatedNotes`: skip the source note, otherwise bump the
candidate's score by the pass's delta when the pass applies. -/
def passBody (p : String) (g : Note → Option Nat) (sc : List (String × Nat)) (other : Note) :
    List (String × Nat) :=
  if other.path == p then sc
  else
    match g other with
    | some d => bumpScore sc other.path d
    | none => sc

/-- Delta of the shared-tags pass of `suggestRelatedNotes`. -/
def gTags (note other : Note) : Option Nat :=
  if 0 < (note.tags.filter (fun tag => other.tags.contains tag)).length then
    some ((note.tags.filter (fun tag => other.tags.contains tag)).length * 10)
  else none

/-- Delta of the shared-title-words pass of `suggestRelatedNotes`. -/
def gWords (note other : Note) : Option Nat :=
  if 0 < ((titleWords other.title).filter
      (fun w => (titleWords note.title).contains w && 3 < w.length)).length then
    some (((titleWords other.title).filter
      (fun w => (titleWords note.title).contains w && 3 < w.length)).length * 5)
  else none

/-- Delta of the folder-proximity pass of `suggestRelatedNotes`. -/
def gFolder (p : String) (other : Note) : Option Nat :=
  if getFolder other.path == getFolder p then some 3 else none

/-- `suggestRelatedNotes(notePath, limit)`: three accumulation passes
(shared tags, shared title words, folder proximity) over the snapshot,
then stable sort by descending score and truncation to `limit`. -/
def suggestRelatedNotes (s : Snapshot) (notePath : String) (limit : Nat) :
    List (String × Nat) :=
  match lookupNote s notePath with
  | none => []
  | some note =>
    let scores : List (String × Nat) := []
    let scores := s.foldl (passBody notePath (gTags note)) scores
    let scores := s.foldl (passBody notePath (gWords note)) scores
    let scores := s.foldl (passBody notePath (gFolder notePath)) scores
    (scores.mergeSort (fun a b => decide (b.2 ≤ a.2))).take limit

/-! ## Definitions used by the theorems: spec-side resolver, concrete
snapshots, and builder bookkeeping -/

/-- The link resolver exactly as §4.1 of the spec words it: normalize
by appending the conventional note-file suffix if absent; if an exact
match for the normalized id exists in the snapshot, return it;
otherwise return the first note in snapshot iteration order matching by
title (against the raw target) or by `/`-suffix (against the
normalized target); if nothing matches, return the normalized id
unchanged. -/
def resolveSpec (s : Snapshot) (t : String) : String :=
  let normalized := if endsWithStr t ".md" then t else t ++ ".md"
  if normalized ∈ s.map Note.path then normalized
  else
    match s.find? (fun n => n.title == t || endsWithStr n.path ("/" ++ normalized)) with
    | some n => n.path
    | none => normalized

/-- An internal-kind link from `src` to raw target `tgt`. -/
def linkTo (src tgt : String) : Link := ⟨src, tgt, LinkType.internal⟩

/-- A note with outgoing links only (no tags, no backlinks). -/
def plainNote (p : String) (tgts : List String) : Note :=
  { path := p, title := p, content := "", tags := [], links := tgts.map (linkTo p)
    backlinks := [] }

/-- Snapshot refuting depth-monotonicity of `getRelatedNotes`:
`s → a, b`, `a → m1 → m2 → p`, `b → p`, `p → q`.  With bound 3 the
short branch `b → p` still has budget to reach `q`; with bound 4 the
long branch `a → m1 → m2` claims `p` first (at depth 3) and `q` at
depth 5 is over budget, while the shared visited set blocks the short
branch. -/
def relCexSnap : Snapshot :=
  [ plainNote "s.md" ["a.md", "b.md"], plainNote "a.md" ["m1.md"],
    plainNote "m1.md" ["m2.md"], plainNote "m2.md" ["p.md"],
    plainNote "b.md" ["p.md"], plainNote "p.md" ["q.md"], plainNote "q.md" [] ]

/-- Snapshot with a single note whose only link target resolves to
nothing: the builder emits a dangling edge. -/
def danglingSnap : Snapshot :=
  [ { path := "a.md", title := "A", content := "", tags := []
      links := [linkTo "a.md" "ghost"], backlinks := [] } ]

/-- The node-id set of a builder state. -/
def idsOf (st : BuildState) : List String := st.nodes.map GraphNode.id

/-- Invariant carried through the `buildGraph` loop: edge sources (and
tag/folder edge targets) always reference nodes already pushed, and the
key set of each synthetic-node map matches a pushed node. -/
structure BuildInv (st : BuildState) : Prop where
  edgesOk : ∀ e ∈ st.edges, e.source ∈ idsOf st ∧
    ((e.type = "tagged-with" ∨ e.type = "in-folder") → e.target ∈ idsOf st)
  tagsOk : ∀ tg ∈ st.tagSeen, ("tag:" ++ tg) ∈ idsOf st
  foldersOk : ∀ fd ∈ st.folderSeen, ("folder:" ++ fd) ∈ idsOf st

/-- Number of note-kind nodes in a node list. -/
def noteKindCount (nodes : List GraphNode) : Nat :=
  (nodes.filter (fun n => n.type == NodeType.note)).length

/-- The number of edges `buildGraph` emits for one note: one per link,
one per tag occurrence, one more when the folder clause fires. -/
def edgeWeightOf (n : Note) : Nat :=
  n.links.length + n.tags.length +
    (if getFolder n.path ≠ "" ∧ getFolder n.path ≠ "." then 1 else 0)

/-- The total score the spec's §4.5 assigns a candidate: 10 per shared
tag, 5 per occurrence in the candidate's lowercased title tokens of a
longer-than-3 word that also occurs in the source title, and a flat 3
for an equal folder. -/
def claimScore (p : String) (note other : Note) : Nat :=
  (note.tags.filter (fun tag => other.tags.contains tag)).length * 10 +
    ((titleWords other.title).filter
      (fun w => (titleWords note.title).contains w && 3 < w.length)).length * 5 +
    (if getFolder other.path == getFolder p then 3 else 0)

/-- Concrete note for scorer witnesses: tags `t1, t2`, title
"Project Plan". -/
def wNoteX : Note :=
  { path := "d/x.md", title := "Project Plan", content := "", tags := ["t1", "t2"]
    links := [], backlinks := [] }

/-- Concrete note for scorer witnesses: shares tag `t2` and title word
"project" with `wNoteX`, and its folder. -/
def wNoteY : Note :=
  { path := "d/y.md", title := "Project Notes", content := "", tags := ["t2"]
    links := [], backlinks := [] }

/-- Two-note snapshot for the scorer witnesses. -/
def wSnap : Snapshot := [wNoteX, wNoteY]

/-- `n`-step reachability along resolved outgoing links: the edge
`u → v` exists when the note stored at `u` has a link whose resolved
target is `v`. -/
inductive ReachN (s : Snapshot) : String → String → Nat → Prop where
  | refl (u : String) : ReachN s u u 0
  | step {u v w : String} {n : Nat} (hv : v ∈ adj s u) (h : ReachN s v w n) :
      ReachN s u w (n + 1)

/-- Reachability along resolved outgoing links through nodes that all
avoid the visited set `vis` (every node of the chain, endpoints
included, is outside `vis`). -/
inductive AReach (s : Snapshot) (vis : List String) : String → String → Nat → Prop where
  | refl (u : String) (hu : u ∉ vis) : AReach s vis u u 0
  | step {u v w : String} {n : Nat} (hu : u ∉ vis) (hv : v ∈ adj s u)
      (h : AReach s vis v w n) : AReach s vis u w (n + 1)

/-- An outgoing-link route as claim C2 describes the result of
`findPath`: nonempty, starting at `u`, ending at `v`, each consecutive
pair connected by a resolved outgoing link. -/
def IsRoute (s : Snapshot) (r : List String) (u v : String) : Prop :=
  r ≠ [] ∧ r.head? = some u ∧ r.getLast? = some v ∧
    List.Chain' (fun a b => b ∈ adj s a) r

/-- Weight of the snapshot paths not yet expanded by the BFS: one unit
for the dequeue of each plus one per link it can push. -/
def unexpWeight (s : Snapshot) (vis : List String) : Nat :=
  ((((s.map Note.path).dedup).filter (fun p => !vis.contains p)).map
    (fun p => 1 + (adj s p).length)).sum

/-- Termination measure of the `findPath` loop: queue length plus the
weight of the unexpanded paths.  Every loop iteration strictly
decreases it. -/
def bfsMeasure (s : Snapshot) (q : List (String × List String)) (vis : List String) : Nat :=
  q.length + unexpWeight s vis

/-- Loop invariant of `findPath`'s BFS from `u` towards `t`:
every queue entry carries a valid route from `u` to its path; route
lengths are sorted and within one of the head's; the destination is
never in the visited set; and every reachable unvisited node is covered
by a queue entry whose route plus a `vis`-avoiding chain stays within
any witnessing reach length. -/
structure BfsInv (s : Snapshot) (u t : String) (q : List (String × List String))
    (vis : List String) : Prop where
  valid : ∀ e ∈ q, IsRoute s e.2 u e.1
  sorted : q.Pairwise (fun a b => a.2.length ≤ b.2.length)
  band : ∀ a ∈ q.head?, ∀ e ∈ q, e.2.length ≤ a.2.length + 1
  tNotVis : t ∉ vis
  cover : ∀ w k, ReachN s u w k → w ∉ vis →
    ∃ e ∈ q, ∃ j, AReach s vis e.1 w j ∧ e.2.length + j ≤ k + 1

/-- Concrete snapshot for the `findPath` witness: `a.md → b.md`. -/
def wPathSnap : Snapshot :=
  [ plainNote "a.md" ["b.md"], plainNote "b.md" [] ]

/-! ## Basic lemmas about the snapshot map -/

theorem lookupNote_mem {s : Snapshot} {p : String} {n : Note}
    (h : lookupNote s p = some n) : n ∈ s :=
  List.mem_of_find?_eq_some h

theorem lookupNote_path {s : Snapshot} {p : String} {n : Note}
    (h : lookupNote s p = some n) : n.path = p := by
  have := List.find?_some h
  simpa [beq_iff_eq] using this

theorem traverse_gas_zero (s : Snapshot) (mD d : Nat) (c : String)
    (st : List String × List String) : traverse s mD 0 d c st = st := rfl

theorem foldl_traverse_gas_zero (s : Snapshot) (mD d : Nat) :
    ∀ (l : List String) (st : List String × List String),
      l.foldl (fun st c => traverse s mD 0 d c st) st = st := by
  intro l
  induction l with
  | nil => intro st; rfl
  | cons c cs ih => intro st; simp only [List.foldl_cons, traverse_gas_zero]; exact ih st

/-! ## The link resolver (claim C4) -/


/-- C4: for every snapshot and raw link target, the implemented
resolver agrees with the resolution algorithm the spec describes:
append the `.md` suffix if absent, prefer an exact path match, then
the first title / path-suffix match in snapshot order, then fall back
to the (possibly dangling) normalized string. -/
theorem resolveNotePath_eq_spec (s : Snapshot) (t : String) :
    resolveNotePath s t = resolveSpec s t := by
  unfold resolveNotePath resolveSpec
  have hcond : (s.any (fun n => n.path == (if endsWithStr t ".md" then t else t ++ ".md"))) = true ↔
      (if endsWithStr t ".md" then t else t ++ ".md") ∈ s.map Note.path := by
    simp only [List.any_eq_true, List.mem_map, beq_iff_eq]
  by_cases h : (if endsWithStr t ".md" then t else t ++ ".md") ∈ s.map Note.path
  · rw [if_pos (hcond.mpr h), if_pos h]
  · rw [if_neg (fun hh => h (hcond.mp hh)), if_neg h]

/-! ## `findPath` trivial-source behavior (claim C9) -/

/-- C9: for every snapshot and every id `x` — present in the snapshot
or not — `findPath(x, x)` returns the single-element route `[x]`: the
first dequeued entry already matches the destination. -/
theorem findPath_self (s : Snapshot) (x : String) : findPath s x x = some [x] := by
  show bfsLoop s x ((((s.map Note.path).dedup).map (fun p => 1 + (adj s p).length)).sum + 1)
    [(x, [x])] [] = some [x]
  rw [bfsLoop]
  simp

/-! ## `getRelatedNotes` results live in the snapshot (claim C10) -/

/-- C10: every note materialized by `getRelatedNotes` is a note of the
snapshot: ids collected by the traversal that name no stored note are
dropped (the very lookup that would materialize them fails). -/
theorem getRelatedNotes_mem_snapshot (s : Snapshot) (p : String) (d : Nat) :
    ∀ m ∈ getRelatedNotes s p d, m ∈ s := by
  intro m hm
  simp only [getRelatedNotes, List.mem_filterMap] at hm
  obtain ⟨a, _, ha⟩ := hm
  exact lookupNote_mem ha

/-! ## `getRelatedNotes` and the depth bound (claim C3) -/

/-- C3 (amended): for every snapshot and start id, a depth bound of `0`
yields the empty result: the start note is marked visited but never
added, and every child call is stopped by the depth guard. -/
theorem getRelatedNotes_depth_zero (s : Snapshot) (p : String) :
    getRelatedNotes s p 0 = [] := by
  unfold getRelatedNotes
  rw [traverse]
  cases h : lookupNote s p with
  | none => simp [h]
  | some note => simp [h, foldl_traverse_gas_zero]


/-- C3 (counterexample): the id sets returned by `getRelatedNotes` are
not monotone in the depth bound: for the snapshot above and depth
bounds `3 ≤ 4`, note `q.md` is related at bound 3 but not at bound 4. -/
theorem getRelatedNotes_not_monotone :
    3 ≤ 4 ∧
    "q.md" ∈ (getRelatedNotes relCexSnap "s.md" 3).map Note.path ∧
    "q.md" ∉ (getRelatedNotes relCexSnap "s.md" 4).map Note.path := by
  refine ⟨by norm_num, ?_, ?_⟩ <;> decide

/-! ## Orphan detection (claim C8) -/

/-- C8: `analyzeGraph().orphanNotes` holds exactly the paths of notes
whose outgoing-link count plus backlink count is zero.  A note with any
link record — resolvable or dangling, parallel or not — contributes a
positive count and is never an orphan. -/
theorem analyzeGraph_orphans (s : Snapshot) (p : String) :
    p ∈ (analyzeGraph s).orphanNotes ↔
      ∃ n ∈ s, n.path = p ∧ n.links.length + n.backlinks.length = 0 := by
  simp only [analyzeGraph, List.mem_map, List.mem_filter, beq_iff_eq]
  constructor
  · rintro ⟨n, ⟨hn, hz⟩, hp⟩; exact ⟨n, hn, hp, hz⟩
  · rintro ⟨n, hn, hp, hz⟩; exact ⟨n, ⟨hn, hz⟩, hp⟩

/-! ## Edge endpoints of the built graph (claim C1) -/


/-- C1 (counterexample): the built graph can contain an edge whose
target id is the id of no node in the same graph: an unresolved link
target is emitted as an edge target although no node carries that id. -/
theorem buildGraph_dangling_edge :
    ∃ e ∈ (buildGraph danglingSnap).edges,
      e.target ∉ (buildGraph danglingSnap).nodes.map GraphNode.id := by
  decide


theorem LinkType.str_ne_tagged (lt : LinkType) :
    lt.str ≠ "tagged-with" ∧ lt.str ≠ "in-folder" := by
  cases lt <;> exact ⟨by decide, by decide⟩

theorem addTagStep_inv (notePath tag : String) (st : BuildState) (h : BuildInv st)
    (hp : notePath ∈ idsOf st) :
    BuildInv (addTagStep notePath st tag) ∧
      ∀ x ∈ idsOf st, x ∈ idsOf (addTagStep notePath st tag) := by
  by_cases hc : st.tagSeen.contains tag = true
  · have htagmem : ("tag:" ++ tag) ∈ idsOf st := h.tagsOk tag (by simpa using hc)
    rw [addTagStep]
    rw [if_pos hc]
    refine ⟨⟨?_, h.tagsOk, h.foldersOk⟩, fun x hx => hx⟩
    intro e he
    simp only [List.mem_append, List.mem_singleton] at he
    rcases he with he | rfl
    · exact h.edgesOk e he
    · exact ⟨hp, fun _ => htagmem⟩
  · rw [addTagStep]
    rw [if_neg hc]
    have hmono : ∀ x ∈ idsOf st,
        x ∈ idsOf st ++ ["tag:" ++ tag] := fun x hx => List.mem_append_left _ hx
    have hids : idsOf st ++ ["tag:" ++ tag] =
        (st.nodes ++
          [({ id := "tag:" ++ tag, title := tag, type := NodeType.tag } : GraphNode)]).map
          GraphNode.id := by
      simp [idsOf]
    have htagmem : ("tag:" ++ tag) ∈ idsOf st ++ ["tag:" ++ tag] := by simp
    rw [hids] at hmono htagmem
    refine ⟨⟨?_, ?_, ?_⟩, fun x hx => hmono x hx⟩
    · intro e he
      simp only [List.mem_append, List.mem_singleton] at he
      rcases he with he | rfl
      · have := h.edgesOk e he
        exact ⟨hmono _ this.1, fun ht => hmono _ (this.2 ht)⟩
      · exact ⟨hmono _ hp, fun _ => htagmem⟩
    · intro tg htg
      simp only [List.mem_append, List.mem_singleton] at htg
      rcases htg with htg | rfl
      · exact hmono _ (h.tagsOk tg htg)
      · exact htagmem
    · intro fd hfd
      exact hmono _ (h.foldersOk fd hfd)

theorem addTagEdges_inv (notePath : String) :
    ∀ (tags : List String) (st : BuildState), BuildInv st → notePath ∈ idsOf st →
      BuildInv (addTagEdges notePath tags st) ∧
        ∀ x ∈ idsOf st, x ∈ idsOf (addTagEdges notePath tags st) := by
  intro tags
  induction tags with
  | nil => intro st h hp; exact ⟨h, fun x hx => hx⟩
  | cons tag tags ih =>
    intro st h hp
    rw [addTagEdges, List.foldl_cons]
    obtain ⟨h1, hmono1⟩ := addTagStep_inv notePath tag st h hp
    obtain ⟨h2, hmono2⟩ := ih (addTagStep notePath st tag) h1 (hmono1 _ hp)
    rw [addTagEdges] at h2 hmono2
    exact ⟨h2, fun x hx => hmono2 x (hmono1 x hx)⟩

/-- The folder clause of `buildStep`, as the `if`-expression it
elaborates to, satisfies the invariant. -/
theorem folderStep_inv (notePath fd : String) (st : BuildState) (h : BuildInv st)
    (hp : notePath ∈ idsOf st) :
    BuildInv
      (let st' :=
        if st.folderSeen.contains fd then st
        else { st with
                nodes := st.nodes ++
                  [{ id := "folder:" ++ fd, title := fd, type := NodeType.folder }]
                folderSeen := st.folderSeen ++ [fd] }
       { st' with
          edges := st'.edges ++
            [{ source := notePath, target := "folder:" ++ fd, type := "in-folder"
               weight := 1 }] }) ∧
      ∀ x ∈ idsOf st,
        x ∈ idsOf
          (let st' :=
            if st.folderSeen.contains fd then st
            else { st with
                    nodes := st.nodes ++
                      [{ id := "folder:" ++ fd, title := fd, type := NodeType.folder }]
                    folderSeen := st.folderSeen ++ [fd] }
           { st' with
              edges := st'.edges ++
                [{ source := notePath, target := "folder:" ++ fd, type := "in-folder"
                   weight := 1 }] }) := by
  by_cases hc : st.folderSeen.contains fd = true
  · have hfdmem : ("folder:" ++ fd) ∈ idsOf st := h.foldersOk fd (by simpa using hc)
    simp only [if_pos hc]
    refine ⟨⟨?_, h.tagsOk, h.foldersOk⟩, fun x hx => hx⟩
    intro e he
    simp only [List.mem_append, List.mem_singleton] at he
    rcases he with he | rfl
    · exact h.edgesOk e he
    · exact ⟨hp, fun _ => hfdmem⟩
  · simp only [if_neg hc]
    have hmono : ∀ x ∈ idsOf st,
        x ∈ idsOf st ++ ["folder:" ++ fd] := fun x hx => List.mem_append_left _ hx
    have hids : idsOf st ++ ["folder:" ++ fd] =
        (st.nodes ++
          [({ id := "folder:" ++ fd, title := fd, type := NodeType.folder } : GraphNode)]).map
          GraphNode.id := by
      simp [idsOf]
    have hfdmem : ("folder:" ++ fd) ∈ idsOf st ++ ["folder:" ++ fd] := by simp
    rw [hids] at hmono hfdmem
    refine ⟨⟨?_, ?_, ?_⟩, fun x hx => hmono x hx⟩
    · intro e he
      simp only [List.mem_append, List.mem_singleton] at he
      rcases he with he | rfl
      · have := h.edgesOk e he
        exact ⟨hmono _ this.1, fun ht => hmono _ (this.2 ht)⟩
      · exact ⟨hmono _ hp, fun _ => hfdmem⟩
    · intro tg htg
      exact hmono _ (h.tagsOk tg htg)
    · intro fd2 hfd2
      simp only [List.mem_append, List.mem_singleton] at hfd2
      rcases hfd2 with hfd2 | rfl
      · exact hmono _ (h.foldersOk fd2 hfd2)
      · exact hfdmem

theorem buildStep_inv (s : Snapshot) (note : Note) (st : BuildState) (h : BuildInv st) :
    BuildInv (buildStep s st note) ∧
      ∀ x ∈ idsOf st, x ∈ idsOf (buildStep s st note) := by
  rw [buildStep]
  have hmono1 : ∀ x ∈ idsOf st, x ∈ idsOf { st with nodes := st.nodes ++ [noteNode note] } := by
    intro x hx
    simp only [idsOf, List.map_append, List.mem_append]
    exact Or.inl hx
  have hpath1 : note.path ∈ idsOf { st with nodes := st.nodes ++ [noteNode note] } := by
    simp [idsOf, noteNode]
  have hinv1 : BuildInv { st with nodes := st.nodes ++ [noteNode note] } := by
    refine ⟨?_, ?_, ?_⟩
    · intro e he
      have := h.edgesOk e he
      exact ⟨hmono1 _ this.1, fun ht => hmono1 _ (this.2 ht)⟩
    · intro tg htg; exact hmono1 _ (h.tagsOk tg htg)
    · intro fd hfd; exact hmono1 _ (h.foldersOk fd hfd)
  have hinv2 : BuildInv
      { st with nodes := st.nodes ++ [noteNode note]
                edges := st.edges ++ note.links.map (fun link =>
                  { source := note.path, target := resolveNotePath s link.target
                    type := link.type.str, weight := 1 }) } := by
    refine ⟨?_, hinv1.tagsOk, hinv1.foldersOk⟩
    intro e he
    simp only [List.mem_append, List.mem_map] at he
    rcases he with he | ⟨link, _, rfl⟩
    · exact hinv1.edgesOk e he
    · refine ⟨hpath1, ?_⟩
      rintro (ht | ht)
      · exact absurd ht (LinkType.str_ne_tagged link.type).1
      · exact absurd ht (LinkType.str_ne_tagged link.type).2
  obtain ⟨hinv3, hmono3⟩ := addTagEdges_inv note.path note.tags _ hinv2 hpath1
  have hpath3 := hmono3 _ hpath1
  by_cases hf : getFolder note.path ≠ "" ∧ getFolder note.path ≠ "."
  · rw [if_pos hf]
    obtain ⟨hinv4, hmono4⟩ := folderStep_inv note.path (getFolder note.path) _ hinv3 hpath3
    exact ⟨hinv4, fun x hx => hmono4 _ (hmono3 _ (hmono1 _ hx))⟩
  · rw [if_neg hf]
    exact ⟨hinv3, fun x hx => hmono3 _ (hmono1 _ hx)⟩

theorem buildFold_inv (s : Snapshot) :
    ∀ (l : List Note) (st : BuildState), BuildInv st → BuildInv (l.foldl (buildStep s) st) := by
  intro l
  induction l with
  | nil => intro st h; exact h
  | cons n l ih =>
    intro st h
    rw [List.foldl_cons]
    exact ih _ (buildStep_inv s n st h).1

/-- C1 (amended): in the graph returned by `buildGraph()`, every edge's
source id is the id of some node of the same graph, and the target id
of every `tagged-with` and `in-folder` edge is the id of some node of
the same graph (tag and folder nodes are created before the edges that
reference them); only link-edge targets may dangle. -/
theorem buildGraph_endpoints (s : Snapshot) :
    ∀ e ∈ (buildGraph s).edges,
      e.source ∈ (buildGraph s).nodes.map GraphNode.id ∧
      ((e.type = "tagged-with" ∨ e.type = "in-folder") →
        e.target ∈ (buildGraph s).nodes.map GraphNode.id) := by
  have h := buildFold_inv s s ⟨[], [], [], []⟩ ⟨by simp, by simp, by simp⟩
  exact h.edgesOk

/-! ## Analyzer totals (claim C7) -/


theorem addTagStep_counts (notePath tag : String) (st : BuildState) :
    noteKindCount (addTagStep notePath st tag).nodes = noteKindCount st.nodes ∧
      (addTagStep notePath st tag).edges.length = st.edges.length + 1 := by
  by_cases hc : st.tagSeen.contains tag = true
  · rw [addTagStep, if_pos hc]
    simp [noteKindCount]
  · rw [addTagStep, if_neg hc]
    simp [noteKindCount, List.filter_append]

theorem addTagEdges_counts (notePath : String) :
    ∀ (tags : List String) (st : BuildState),
      noteKindCount (addTagEdges notePath tags st).nodes = noteKindCount st.nodes ∧
        (addTagEdges notePath tags st).edges.length = st.edges.length + tags.length := by
  intro tags
  induction tags with
  | nil => intro st; exact ⟨rfl, rfl⟩
  | cons tag tags ih =>
    intro st
    rw [addTagEdges, List.foldl_cons]
    obtain ⟨h1, h2⟩ := addTagStep_counts notePath tag st
    obtain ⟨h3, h4⟩ := ih (addTagStep notePath st tag)
    rw [addTagEdges] at h3 h4
    refine ⟨by rw [h3, h1], ?_⟩
    rw [h4, h2, List.length_cons]
    omega

theorem buildStep_counts (s : Snapshot) (note : Note) (st : BuildState) :
    noteKindCount (buildStep s st note).nodes = noteKindCount st.nodes + 1 ∧
      (buildStep s st note).edges.length = st.edges.length + edgeWeightOf note := by
  rw [buildStep]
  obtain ⟨h3, h4⟩ := addTagEdges_counts note.path note.tags
    { st with nodes := st.nodes ++ [noteNode note]
              edges := st.edges ++ note.links.map (fun link =>
                { source := note.path, target := resolveNotePath s link.target
                  type := link.type.str, weight := 1 }) }
  have hn1 : noteKindCount (st.nodes ++ [noteNode note]) = noteKindCount st.nodes + 1 := by
    simp [noteKindCount, List.filter_append, noteNode]
  by_cases hf : getFolder note.path ≠ "" ∧ getFolder note.path ≠ "."
  · rw [if_pos hf]
    by_cases hc :
        (addTagEdges note.path note.tags
          { st with nodes := st.nodes ++ [noteNode note]
                    edges := st.edges ++ note.links.map (fun link =>
                      { source := note.path, target := resolveNotePath s link.target
                        type := link.type.str, weight := 1 }) }).folderSeen.contains
          (getFolder note.path) = true
    · rw [if_pos hc]
      constructor
      · simpa [h3] using hn1
      · simp only [List.length_append, h4, List.length_append, List.length_map,
          List.length_cons, List.length_nil, edgeWeightOf, if_pos hf]
        omega
    · rw [if_neg hc]
      constructor
      · simp only [noteKindCount, List.filter_append] at h3 hn1 ⊢
        simp [h3, hn1]
      · simp only [List.length_append, h4, List.length_append, List.length_map,
          List.length_cons, List.length_nil, edgeWeightOf, if_pos hf]
        omega
  · rw [if_neg hf]
    constructor
    · simpa [h3] using hn1
    · simp only [h4, List.length_append, List.length_map, edgeWeightOf, if_neg hf]
      omega

theorem buildFold_counts (s : Snapshot) :
    ∀ (l : List Note) (st : BuildState),
      noteKindCount ((l.foldl (buildStep s) st).nodes) = noteKindCount st.nodes + l.length ∧
        (l.foldl (buildStep s) st).edges.length =
          st.edges.length + (l.map edgeWeightOf).sum := by
  intro l
  induction l with
  | nil => intro st; simp
  | cons n l ih =>
    intro st
    rw [List.foldl_cons]
    obtain ⟨h1, h2⟩ := buildStep_counts s n st
    obtain ⟨h3, h4⟩ := ih (buildStep s st n)
    refine ⟨by rw [h3, h1, List.length_cons]; omega, ?_⟩
    rw [h4, h2, List.map_cons, List.sum_cons]
    omega

/-- C7: `analyzeGraph()` reports `totalNodes` as the count of note-kind
nodes only — one per snapshot note, tag and folder nodes excluded — and
`totalEdges` as the length of the whole edge list: per note, one edge
per link (dangling or not), one per tag occurrence, and one more when
the note sits in a named folder. -/
theorem analyzeGraph_totals (s : Snapshot) :
    (analyzeGraph s).totalNodes = s.length ∧
      (analyzeGraph s).totalEdges = (s.map edgeWeightOf).sum := by
  obtain ⟨h1, h2⟩ := buildFold_counts s s ⟨[], [], [], []⟩
  constructor
  · show noteKindCount (buildGraph s).nodes = s.length
    rw [buildGraph]
    simpa [noteKindCount] using h1
  · show (buildGraph s).edges.length = (s.map edgeWeightOf).sum
    rw [buildGraph]
    simpa using h2

/-! ## Score-map lemmas (claims C5, C6) -/

theorem bumpScore_keys :
    ∀ (sc : List (String × Nat)) (p : String) (delta : Nat) (x : String),
      x ∈ scoreKeys (bumpScore sc p delta) ↔ x ∈ scoreKeys sc ∨ x = p := by
  intro sc
  induction sc with
  | nil => intro p delta x; simp [bumpScore, scoreKeys]
  | cons e rest ih =>
    intro p delta x
    rw [bumpScore]
    by_cases h : e.1 == p
    · have he : e.1 = p := by simpa using h
      rw [if_pos h]
      simp only [scoreKeys, List.map_cons, List.mem_cons, he]
      tauto
    · rw [if_neg h]
      simp only [scoreKeys, List.map_cons, List.mem_cons] at *
      rw [ih p delta x]
      tauto

theorem bumpScore_keys_nodup :
    ∀ (sc : List (String × Nat)) (p : String) (delta : Nat),
      (scoreKeys sc).Nodup → (scoreKeys (bumpScore sc p delta)).Nodup := by
  intro sc
  induction sc with
  | nil => intro p delta _; simp [bumpScore, scoreKeys]
  | cons e rest ih =>
    intro p delta h
    simp only [scoreKeys, List.map_cons, List.nodup_cons] at h
    rw [bumpScore]
    by_cases hc : e.1 == p
    · rw [if_pos hc]
      simp only [scoreKeys, List.map_cons, List.nodup_cons]
      exact h
    · have hne : e.1 ≠ p := by simpa using hc
      rw [if_neg hc]
      simp only [scoreKeys, List.map_cons, List.nodup_cons]
      refine ⟨?_, ih p delta h.2⟩
      intro hmem
      rcases (bumpScore_keys rest p delta e.1).mp hmem with hmem | hmem
      · exact h.1 hmem
      · exact hne hmem

theorem scoreOf_cons_self {e : String × Nat} {q : String} (rest : List (String × Nat))
    (h : (e.1 == q) = true) : scoreOf (e :: rest) q = e.2 := by
  simp [scoreOf, List.find?_cons, h]

theorem scoreOf_cons_ne {e : String × Nat} {q : String} (rest : List (String × Nat))
    (h : (e.1 == q) = false) : scoreOf (e :: rest) q = scoreOf rest q := by
  simp [scoreOf, List.find?_cons, h]

theorem bumpScore_scoreOf_self :
    ∀ (sc : List (String × Nat)) (p : String) (delta : Nat),
      scoreOf (bumpScore sc p delta) p = scoreOf sc p + delta := by
  intro sc
  induction sc with
  | nil => intro p delta; simp [bumpScore, scoreOf]
  | cons e rest ih =>
    intro p delta
    rw [bumpScore]
    by_cases hc : e.1 == p
    · rw [if_pos hc]
      simp [scoreOf, List.find?_cons, hc]
    · have hc' : (e.1 == p) = false := by simpa using hc
      rw [if_neg hc, scoreOf_cons_ne _ hc', scoreOf_cons_ne _ hc']
      exact ih p delta

theorem bumpScore_scoreOf_ne :
    ∀ (sc : List (String × Nat)) (p q : String) (delta : Nat), q ≠ p →
      scoreOf (bumpScore sc p delta) q = scoreOf sc q := by
  intro sc
  induction sc with
  | nil =>
    intro p q delta hq
    have : (p == q) = false := by simpa using fun h => hq h.symm
    simp [bumpScore, scoreOf, this]
  | cons e rest ih =>
    intro p q delta hq
    rw [bumpScore]
    by_cases hc : e.1 == p
    · have he : e.1 = p := by simpa using hc
      have : (e.1 == q) = false := by
        simp only [beq_eq_false_iff_ne, ne_eq, he]
        exact fun h => hq h.symm
      rw [if_pos hc]
      simp [scoreOf, List.find?_cons, this]
    · rw [if_neg hc]
      by_cases hcq : e.1 == q
      · rw [scoreOf_cons_self _ hcq, scoreOf_cons_self _ hcq]
      · have hcq' : (e.1 == q) = false := by simpa using hcq
        rw [scoreOf_cons_ne _ hcq', scoreOf_cons_ne _ hcq']
        exact ih p q delta hq

theorem bumpScore_pos :
    ∀ (sc : List (String × Nat)) (p : String) (delta : Nat), (∀ e ∈ sc, 0 < e.2) →
      0 < delta → ∀ e ∈ bumpScore sc p delta, 0 < e.2 := by
  intro sc
  induction sc with
  | nil =>
    intro p delta _ hd e he
    simp only [bumpScore, List.mem_singleton] at he
    subst he; exact hd
  | cons e0 rest ih =>
    intro p delta h hd e he
    rw [bumpScore] at he
    by_cases hc : e0.1 == p
    · rw [if_pos hc] at he
      rcases List.mem_cons.mp he with rfl | he
      · have := h e0 (List.mem_cons_self e0 rest)
        simp only []
        omega
      · exact h e (List.mem_cons_of_mem _ he)
    · rw [if_neg hc] at he
      rcases List.mem_cons.mp he with rfl | he
      · exact h e (List.mem_cons_self e rest)
      · exact ih p delta (fun x hx => h x (List.mem_cons_of_mem _ hx)) hd e he

theorem scoreOf_mem {sc : List (String × Nat)} (h : (scoreKeys sc).Nodup)
    {e : String × Nat} (he : e ∈ sc) : scoreOf sc e.1 = e.2 := by
  induction sc with
  | nil => cases he
  | cons e0 rest ih =>
    simp only [scoreKeys, List.map_cons, List.nodup_cons] at h
    rcases List.mem_cons.mp he with rfl | he
    · simp [scoreOf, List.find?_cons]
    · have hne : (e0.1 == e.1) = false := by
        simp only [beq_eq_false_iff_ne, ne_eq]
        intro hcontra
        exact h.1 (hcontra ▸ List.mem_map_of_mem Prod.fst he)
      simp only [scoreOf, List.find?_cons, hne]
      exact ih h.2 he

/-! ## Pass lemmas for the scorer -/

theorem passFold_keys (p : String) (g : Note → Option Nat) :
    ∀ (l : List Note) (sc : List (String × Nat)) (x : String),
      x ∈ scoreKeys (l.foldl (passBody p g) sc) ↔
        x ∈ scoreKeys sc ∨ ∃ n ∈ l, n.path = x ∧ x ≠ p ∧ (g n).isSome := by
  intro l
  induction l with
  | nil => intro sc x; simp
  | cons n0 l ih =>
    intro sc x
    rw [List.foldl_cons, ih]
    have hbody : x ∈ scoreKeys (passBody p g sc n0) ↔
        x ∈ scoreKeys sc ∨ (n0.path = x ∧ x ≠ p ∧ (g n0).isSome) := by
      rw [passBody]
      by_cases hp : n0.path == p
      · have hp' : n0.path = p := by simpa using hp
        rw [if_pos hp]
        constructor
        · exact Or.inl
        · rintro (hx | ⟨rfl, hxp, _⟩)
          · exact hx
          · exact absurd hp' hxp
      · have hp' : n0.path ≠ p := by simpa using hp
        rw [if_neg hp]
        cases hg : g n0 with
        | none => simp [hg]
        | some d =>
          rw [bumpScore_keys]
          constructor
          · rintro (hx | rfl)
            · exact Or.inl hx
            · exact Or.inr ⟨rfl, hp', by simp [hg]⟩
          · rintro (hx | ⟨rfl, _, _⟩)
            · exact Or.inl hx
            · exact Or.inr rfl
    rw [hbody]
    simp only [List.mem_cons]
    constructor
    · rintro ((hx | hx) | ⟨n, hn, hrest⟩)
      · exact Or.inl hx
      · exact Or.inr ⟨n0, Or.inl rfl, hx⟩
      · exact Or.inr ⟨n, Or.inr hn, hrest⟩
    · rintro (hx | ⟨n, hn | hn, hrest⟩)
      · exact Or.inl (Or.inl hx)
      · exact Or.inl (Or.inr (hn ▸ hrest))
      · exact Or.inr ⟨n, hn, hrest⟩

theorem passFold_nodup (p : String) (g : Note → Option Nat) :
    ∀ (l : List Note) (sc : List (String × Nat)),
      (scoreKeys sc).Nodup → (scoreKeys (l.foldl (passBody p g) sc)).Nodup := by
  intro l
  induction l with
  | nil => intro sc h; exact h
  | cons n0 l ih =>
    intro sc h
    rw [List.foldl_cons]
    refine ih _ ?_
    rw [passBody]
    by_cases hp : n0.path == p
    · rw [if_pos hp]; exact h
    · rw [if_neg hp]
      cases hg : g n0 with
      | none => exact h
      | some d => exact bumpScore_keys_nodup sc n0.path d h

theorem passFold_scoreOf (p : String) (g : Note → Option Nat) :
    ∀ (l : List Note) (sc : List (String × Nat)) (q : String),
      scoreOf (l.foldl (passBody p g) sc) q =
        scoreOf sc q +
          (if q = p then 0
           else ((l.filter (fun n => n.path == q)).map (fun n => (g n).getD 0)).sum) := by
  intro l
  induction l with
  | nil => intro sc q; simp
  | cons n0 l ih =>
    intro sc q
    rw [List.foldl_cons, ih]
    by_cases hq : q = p
    · simp only [if_pos hq]
      subst hq
      rw [passBody]
      by_cases hp : n0.path == q
      · rw [if_pos hp]
      · rw [if_neg hp]
        cases hg : g n0 with
        | none => rfl
        | some d =>
          rw [bumpScore_scoreOf_ne sc n0.path q d (by simpa using fun h => hp (by simp [h]))]
    · simp only [if_neg hq]
      by_cases hnq : n0.path == q
      · have hnq' : n0.path = q := by simpa using hnq
        have hnp : (n0.path == p) = false := by
          simp only [beq_eq_false_iff_ne, ne_eq, hnq']
          exact hq
        rw [passBody, hnp]
        simp only [Bool.false_eq_true, if_false]
        rw [List.filter_cons_of_pos (by simpa using hnq), List.map_cons, List.sum_cons]
        cases hg : g n0 with
        | none => simp [hg]
        | some d =>
          rw [hnq', bumpScore_scoreOf_self]
          simp [hg]
          omega
      · rw [List.filter_cons_of_neg (by simpa using hnq)]
        rw [passBody]
        by_cases hp : n0.path == p
        · rw [if_pos hp]
        · rw [if_neg hp]
          cases hg : g n0 with
          | none => rfl
          | some d =>
            rw [bumpScore_scoreOf_ne sc n0.path q d (by simpa using fun h => hnq (by simp [h]))]

theorem passFold_pos (p : String) (g : Note → Option Nat)
    (hg : ∀ n d, g n = some d → 0 < d) :
    ∀ (l : List Note) (sc : List (String × Nat)), (∀ e ∈ sc, 0 < e.2) →
      ∀ e ∈ l.foldl (passBody p g) sc, 0 < e.2 := by
  intro l
  induction l with
  | nil => intro sc h; exact h
  | cons n0 l ih =>
    intro sc h
    rw [List.foldl_cons]
    refine ih _ ?_
    rw [passBody]
    by_cases hp : n0.path == p
    · rw [if_pos hp]; exact h
    · rw [if_neg hp]
      cases hg0 : g n0 with
      | none => exact h
      | some d => exact bumpScore_pos sc n0.path d h (hg n0 d hg0)

/-! ## The scorer follows the source's three inline loops -/

/-- The composition of the three named passes is exactly the source's
three inline accumulation loops (shared tags, then common title words,
then folder proximity), written out verbatim. -/
theorem suggestRelatedNotes_src (s : Snapshot) (p : String) (k : Nat) (note : Note)
    (hn : lookupNote s p = some note) :
    suggestRelatedNotes s p k =
      ((s.foldl (fun sc other =>
            if other.path == p then sc
            else if getFolder other.path == getFolder p then bumpScore sc other.path 3
            else sc)
          (s.foldl (fun sc other =>
              if other.path == p then sc
              else
                let commonWords := (titleWords other.title).filter
                  (fun w => (titleWords note.title).contains w && 3 < w.length)
                if 0 < commonWords.length then
                  bumpScore sc other.path (commonWords.length * 5)
                else sc)
            (s.foldl (fun sc other =>
                if other.path == p then sc
                else
                  let sharedTags := note.tags.filter (fun tag => other.tags.contains tag)
                  if 0 < sharedTags.length then
                    bumpScore sc other.path (sharedTags.length * 10)
                  else sc)
              []))).mergeSort (fun a b => decide (b.2 ≤ a.2))).take k := by
  have pw1 : ∀ (sc : List (String × Nat)) (other : Note),
      passBody p (gTags note) sc other =
        if other.path == p then sc
        else
          let sharedTags := note.tags.filter (fun tag => other.tags.contains tag)
          if 0 < sharedTags.length then bumpScore sc other.path (sharedTags.length * 10)
          else sc := by
    intro sc other
    rw [passBody, gTags]
    by_cases hp : other.path == p
    · rw [if_pos hp, if_pos hp]
    · rw [if_neg hp, if_neg hp]
      by_cases hl : 0 < (note.tags.filter (fun tag => other.tags.contains tag)).length
      · simp only [if_pos hl]
      · simp only [if_neg hl]
  have pw2 : ∀ (sc : List (String × Nat)) (other : Note),
      passBody p (gWords note) sc other =
        if other.path == p then sc
        else
          let commonWords := (titleWords other.title).filter
            (fun w => (titleWords note.title).contains w && 3 < w.length)
          if 0 < commonWords.length then bumpScore sc other.path (commonWords.length * 5)
          else sc := by
    intro sc other
    rw [passBody, gWords]
    by_cases hp : other.path == p
    · rw [if_pos hp, if_pos hp]
    · rw [if_neg hp, if_neg hp]
      by_cases hl : 0 < ((titleWords other.title).filter
          (fun w => (titleWords note.title).contains w && 3 < w.length)).length
      · simp only [if_pos hl]
      · simp only [if_neg hl]
  have pw3 : ∀ (sc : List (String × Nat)) (other : Note),
      passBody p (gFolder p) sc other =
        if other.path == p then sc
        else if getFolder other.path == getFolder p then bumpScore sc other.path 3
        else sc := by
    intro sc other
    rw [passBody, gFolder]
    by_cases hp : other.path == p
    · rw [if_pos hp, if_pos hp]
    · rw [if_neg hp, if_neg hp]
      by_cases hl : getFolder other.path == getFolder p
      · simp only [if_pos hl]
      · simp only [if_neg hl]
  have e1 : s.foldl (passBody p (gTags note)) [] =
      s.foldl (fun sc other =>
        if other.path == p then sc
        else
          let sharedTags := note.tags.filter (fun tag => other.tags.contains tag)
          if 0 < sharedTags.length then bumpScore sc other.path (sharedTags.length * 10)
          else sc) [] :=
    List.foldl_ext _ _ _ (fun sc other _ => pw1 sc other)
  have e2 : ∀ (init : List (String × Nat)), s.foldl (passBody p (gWords note)) init =
      s.foldl (fun sc other =>
        if other.path == p then sc
        else
          let commonWords := (titleWords other.title).filter
            (fun w => (titleWords note.title).contains w && 3 < w.length)
          if 0 < commonWords.length then bumpScore sc other.path (commonWords.length * 5)
          else sc) init :=
    fun init => List.foldl_ext _ _ init (fun sc other _ => pw2 sc other)
  have e3 : ∀ (init : List (String × Nat)), s.foldl (passBody p (gFolder p)) init =
      s.foldl (fun sc other =>
        if other.path == p then sc
        else if getFolder other.path == getFolder p then bumpScore sc other.path 3
        else sc) init :=
    fun init => List.foldl_ext _ _ init (fun sc other _ => pw3 sc other)
  simp only [suggestRelatedNotes, hn]
  rw [e1, e2, e3]

/-! ## Path uniqueness consequences -/

theorem note_path_inj {s : Snapshot} (hWf : (s.map Note.path).Nodup)
    {m1 m2 : Note} (h1 : m1 ∈ s) (h2 : m2 ∈ s) (h : m1.path = m2.path) : m1 = m2 :=
  List.inj_on_of_nodup_map hWf h1 h2 h

theorem filter_path_singleton {s : Snapshot} (hWf : (s.map Note.path).Nodup)
    {other : Note} (ho : other ∈ s) :
    s.filter (fun n => n.path == other.path) = [other] := by
  induction s with
  | nil => cases ho
  | cons m rest ih =>
    simp only [List.map_cons, List.nodup_cons] at hWf
    rcases List.mem_cons.mp ho with rfl | ho
    · rw [List.filter_cons_of_pos (by simp)]
      have : rest.filter (fun n => n.path == other.path) = [] := by
        rw [List.filter_eq_nil_iff]
        intro n hn
        simp only [beq_iff_eq]
        intro hcontra
        exact hWf.1 (hcontra ▸ List.mem_map_of_mem Note.path hn)
      rw [this]
    · have hmp : m.path ≠ other.path := by
        intro hcontra
        exact hWf.1 (hcontra ▸ List.mem_map_of_mem Note.path ho)
      rw [List.filter_cons_of_neg (by simpa using hmp)]
      exact ih hWf.2 ho

/-! ## Shape of the scorer output (claim C6) -/

/-- C6: `suggestRelatedNotes(n, k)` never lists the source note itself,
returns at most `k` entries, and its scores are non-increasing from
first entry to last. -/
theorem suggestRelatedNotes_shape (s : Snapshot) (p : String) (k : Nat) :
    (∀ e ∈ suggestRelatedNotes s p k, e.1 ≠ p) ∧
      (suggestRelatedNotes s p k).length ≤ k ∧
      (suggestRelatedNotes s p k).Pairwise (fun a b => b.2 ≤ a.2) := by
  cases hn : lookupNote s p with
  | none => simp [suggestRelatedNotes, hn]
  | some note =>
    have hdef : suggestRelatedNotes s p k =
        ((s.foldl (passBody p (gFolder p))
            (s.foldl (passBody p (gWords note))
              (s.foldl (passBody p (gTags note)) []))).mergeSort
          (fun a b => decide (b.2 ≤ a.2))).take k := by
      simp only [suggestRelatedNotes, hn]
    rw [hdef]
    refine ⟨?_, ?_, ?_⟩
    · intro e he
      have he2 : e ∈ s.foldl (passBody p (gFolder p))
          (s.foldl (passBody p (gWords note)) (s.foldl (passBody p (gTags note)) [])) :=
        List.mem_mergeSort.mp (List.mem_of_mem_take he)
      have hkey : e.1 ∈ scoreKeys (s.foldl (passBody p (gFolder p))
          (s.foldl (passBody p (gWords note)) (s.foldl (passBody p (gTags note)) []))) :=
        List.mem_map_of_mem Prod.fst he2
      rw [passFold_keys] at hkey
      rcases hkey with hkey | ⟨_, _, _, hne, _⟩
      · rw [passFold_keys] at hkey
        rcases hkey with hkey | ⟨_, _, _, hne, _⟩
        · rw [passFold_keys] at hkey
          rcases hkey with hkey | ⟨_, _, _, hne, _⟩
          · simp [scoreKeys] at hkey
          · exact hne
        · exact hne
      · exact hne
    · exact List.length_take_le k _
    · have htrans : ∀ (a b c : String × Nat),
          (fun a b : String × Nat => decide (b.2 ≤ a.2)) a b →
            (fun a b : String × Nat => decide (b.2 ≤ a.2)) b c →
              (fun a b : String × Nat => decide (b.2 ≤ a.2)) a c := by
        intro a b c hab hbc
        simp only [decide_eq_true_eq] at *
        omega
      have htotal : ∀ (a b : String × Nat),
          ((fun a b : String × Nat => decide (b.2 ≤ a.2)) a b ||
            (fun a b : String × Nat => decide (b.2 ≤ a.2)) b a) := by
        intro a b
        simp only [Bool.or_eq_true, decide_eq_true_eq]
        exact Nat.le_total b.2 a.2
      have hs := List.sorted_mergeSort htrans htotal
        (s.foldl (passBody p (gFolder p))
          (s.foldl (passBody p (gWords note)) (s.foldl (passBody p (gTags note)) [])))
      have hs2 := hs.imp (fun {a b} h => by
        simpa using of_decide_eq_true h : ∀ {a b : String × Nat},
          (fun a b : String × Nat => decide (b.2 ≤ a.2)) a b → b.2 ≤ a.2)
      exact List.Pairwise.sublist (List.take_sublist k _) hs2

/-! ## Scoring formula (claim C5) -/

/-- C5: in a well-formed snapshot whose notes carry duplicate-free tag
sets, every entry of `suggestRelatedNotes(n, k)` belongs to a snapshot
note and carries exactly the spec's score — 10 per shared tag, 5 per
qualifying shared title-word occurrence, 3 for an equal folder — every
reported score is strictly positive, and a candidate whose accumulated
score is zero never appears. -/
theorem suggestRelatedNotes_scoring (s : Snapshot) (p : String) (k : Nat) (note : Note)
    (hWf : (s.map Note.path).Nodup) (htags : ∀ m ∈ s, m.tags.Nodup)
    (hn : lookupNote s p = some note) :
    (∀ e ∈ suggestRelatedNotes s p k,
       ∃ other ∈ s, other.path = e.1 ∧ e.2 = claimScore p note other) ∧
      (∀ e ∈ suggestRelatedNotes s p k, 0 < e.2) ∧
      (∀ other ∈ s, claimScore p note other = 0 →
        ∀ e ∈ suggestRelatedNotes s p k, e.1 ≠ other.path) := by
  have hdef : suggestRelatedNotes s p k =
      ((s.foldl (passBody p (gFolder p))
          (s.foldl (passBody p (gWords note))
            (s.foldl (passBody p (gTags note)) []))).mergeSort
        (fun a b => decide (b.2 ≤ a.2))).take k := by
    simp only [suggestRelatedNotes, hn]
  have hnodup : (scoreKeys (s.foldl (passBody p (gFolder p))
      (s.foldl (passBody p (gWords note)) (s.foldl (passBody p (gTags note)) [])))).Nodup :=
    passFold_nodup _ _ s _ (passFold_nodup _ _ s _ (passFold_nodup _ _ s _ (by
      simp [scoreKeys])))
  have hmem_entries : ∀ e ∈ suggestRelatedNotes s p k,
      e ∈ s.foldl (passBody p (gFolder p))
        (s.foldl (passBody p (gWords note)) (s.foldl (passBody p (gTags note)) [])) := by
    intro e he
    rw [hdef] at he
    exact List.mem_mergeSort.mp (List.mem_of_mem_take he)
  have hformula : ∀ e ∈ suggestRelatedNotes s p k,
      ∃ other ∈ s, other.path = e.1 ∧ e.2 = claimScore p note other := by
    intro e he
    have he2 := hmem_entries e he
    have hkey : e.1 ∈ scoreKeys (s.foldl (passBody p (gFolder p))
        (s.foldl (passBody p (gWords note)) (s.foldl (passBody p (gTags note)) []))) :=
      List.mem_map_of_mem Prod.fst he2
    have hother : (∃ n ∈ s, n.path = e.1) ∧ e.1 ≠ p := by
      rw [passFold_keys] at hkey
      rcases hkey with hkey | ⟨n, hns, hnp, hne, _⟩
      · rw [passFold_keys] at hkey
        rcases hkey with hkey | ⟨n, hns, hnp, hne, _⟩
        · rw [passFold_keys] at hkey
          rcases hkey with hkey | ⟨n, hns, hnp, hne, _⟩
          · simp [scoreKeys] at hkey
          · exact ⟨⟨n, hns, hnp⟩, hne⟩
        · exact ⟨⟨n, hns, hnp⟩, hne⟩
      · exact ⟨⟨n, hns, hnp⟩, hne⟩
    obtain ⟨⟨other, hos, hop⟩, hne⟩ := hother
    refine ⟨other, hos, hop, ?_⟩
    have hval : scoreOf (s.foldl (passBody p (gFolder p))
        (s.foldl (passBody p (gWords note)) (s.foldl (passBody p (gTags note)) []))) e.1 =
        e.2 := scoreOf_mem hnodup he2
    rw [passFold_scoreOf, passFold_scoreOf, passFold_scoreOf] at hval
    have hz : scoreOf ([] : List (String × Nat)) e.1 = 0 := by simp [scoreOf]
    rw [hz, if_neg hne, if_neg hne, if_neg hne] at hval
    have hfilter : s.filter (fun n => n.path == e.1) = [other] := by
      rw [← hop]
      exact filter_path_singleton hWf hos
    rw [hfilter] at hval
    simp only [List.map_cons, List.map_nil, List.sum_cons, List.sum_nil] at hval
    have ht : (gTags note other).getD 0 =
        (note.tags.filter (fun tag => other.tags.contains tag)).length * 10 := by
      rw [gTags]
      by_cases hl : 0 < (note.tags.filter (fun tag => other.tags.contains tag)).length
      · rw [if_pos hl]; rfl
      · rw [if_neg hl]
        simp only [Option.getD_none]
        omega
    have hw : (gWords note other).getD 0 =
        ((titleWords other.title).filter
          (fun w => (titleWords note.title).contains w && 3 < w.length)).length * 5 := by
      rw [gWords]
      by_cases hl : 0 < ((titleWords other.title).filter
          (fun w => (titleWords note.title).contains w && 3 < w.length)).length
      · rw [if_pos hl]; rfl
      · rw [if_neg hl]
        simp only [Option.getD_none]
        omega
    have hf : (gFolder p other).getD 0 =
        if getFolder other.path == getFolder p then 3 else 0 := by
      rw [gFolder]
      by_cases hl : getFolder other.path == getFolder p
      · rw [if_pos hl, if_pos hl]; rfl
      · rw [if_neg hl, if_neg hl]; rfl
    rw [ht, hw, hf] at hval
    rw [claimScore, ← hval]
    by_cases hl : getFolder other.path == getFolder p
    · rw [if_pos hl]; omega
    · rw [if_neg hl]; omega
  have hpos : ∀ e ∈ suggestRelatedNotes s p k, 0 < e.2 := by
    intro e he
    refine passFold_pos p (gFolder p) ?_ s _
      (passFold_pos p (gWords note) ?_ s _
        (passFold_pos p (gTags note) ?_ s _ (by simp) )) e (hmem_entries e he)
    · intro n d hg
      rw [gFolder] at hg
      by_cases hl : getFolder n.path == getFolder p
      · rw [if_pos hl] at hg
        cases hg
        omega
      · rw [if_neg hl] at hg
        cases hg
    · intro n d hg
      rw [gWords] at hg
      by_cases hl : 0 < ((titleWords n.title).filter
          (fun w => (titleWords note.title).contains w && 3 < w.length)).length
      · rw [if_pos hl] at hg
        cases hg
        omega
      · rw [if_neg hl] at hg
        cases hg
    · intro n d hg
      rw [gTags] at hg
      by_cases hl : 0 < (note.tags.filter (fun tag => n.tags.contains tag)).length
      · rw [if_pos hl] at hg
        cases hg
        omega
      · rw [if_neg hl] at hg
        cases hg
  refine ⟨hformula, hpos, ?_⟩
  intro other ho hzero e he hcontra
  obtain ⟨other2, ho2, hop2, hval2⟩ := hformula e he
  have : other2 = other := note_path_inj hWf ho2 ho (by rw [hop2, hcontra])
  subst this
  have := hpos e he
  omega

/-- Witness for the scoring theorem: its hypotheses hold for the
concrete two-note snapshot `wSnap`, and the conclusion follows by
applying the theorem there. -/
theorem suggestRelatedNotes_scoring_witness :
    (wSnap.map Note.path).Nodup ∧ (∀ m ∈ wSnap, m.tags.Nodup) ∧
      lookupNote wSnap "d/x.md" = some wNoteX ∧
      ((∀ e ∈ suggestRelatedNotes wSnap "d/x.md" 5,
          ∃ other ∈ wSnap, other.path = e.1 ∧ e.2 = claimScore "d/x.md" wNoteX other) ∧
        (∀ e ∈ suggestRelatedNotes wSnap "d/x.md" 5, 0 < e.2) ∧
        (∀ other ∈ wSnap, claimScore "d/x.md" wNoteX other = 0 →
          ∀ e ∈ suggestRelatedNotes wSnap "d/x.md" 5, e.1 ≠ other.path)) :=
  ⟨by decide, by decide, by decide,
    suggestRelatedNotes_scoring wSnap "d/x.md" 5 wNoteX (by decide) (by decide) (by decide)⟩

/-! ## Reachability lemmas for the BFS proof -/

theorem AReach.start_not_vis {s : Snapshot} {vis : List String} {x w : String} {j : Nat}
    (h : AReach s vis x w j) : x ∉ vis := by
  cases h with
  | refl _ hu => exact hu
  | step hu _ _ => exact hu

theorem reachN_to_areach_nil {s : Snapshot} {x w : String} {j : Nat}
    (h : ReachN s x w j) : AReach s [] x w j := by
  induction h with
  | refl v => exact AReach.refl v (by simp)
  | step hv _ ih => exact AReach.step (by simp) hv ih

/-- A `vis`-avoiding chain survives inserting `p` into the visited set:
either the whole chain already avoids `p`, or its suffix after the
last occurrence of `p` starts at a neighbor of `p` and is strictly
shorter. -/
theorem areach_insert {s : Snapshot} {vis : List String} {x w : String} {j : Nat} {p : String}
    (h : AReach s vis x w j) :
    w ≠ p →
      (∃ j2 ≤ j, AReach s (vis ++ [p]) x w j2) ∨
        (∃ y ∈ adj s p, ∃ j2, AReach s (vis ++ [p]) y w j2 ∧ j2 + 1 ≤ j) := by
  induction h with
  | refl v hu =>
    intro hw
    left
    refine ⟨0, Nat.le_refl 0, AReach.refl v ?_⟩
    simp only [List.mem_append, List.mem_singleton]
    rintro (hv | rfl)
    · exact hu hv
    · exact hw rfl
  | @step a b c n hu hv _ ih =>
    intro hw
    rcases ih hw with ⟨j2, hj2, h2⟩ | ⟨y, hy, j2, h2, hj2⟩
    · by_cases hap : a = p
      · right
        exact ⟨b, hap ▸ hv, j2, h2, by omega⟩
      · left
        refine ⟨j2 + 1, by omega, AReach.step ?_ hv h2⟩
        simp only [List.mem_append, List.mem_singleton]
        rintro (ha | rfl)
        · exact hu ha
        · exact hap rfl
    · right
      exact ⟨y, hy, j2, h2, by omega⟩

/-- Converting a route of C2's shape into step-counted reachability. -/
theorem route_to_reachN (s : Snapshot) :
    ∀ (r : List String) (u v : String), IsRoute s r u v → ReachN s u v (r.length - 1)
  | [], _, _, h => absurd rfl h.1
  | [x], u, v, h => by
    obtain ⟨_, h2, h3, _⟩ := h
    have hx : x = u := by simpa using h2
    have hv : x = v := by simpa using h3
    rw [← hx, ← hv]
    exact ReachN.refl x
  | x :: y :: rest, u, v, h => by
    obtain ⟨_, h2, h3, h4⟩ := h
    have hx : x = u := by simpa using h2
    have hchain := List.chain'_cons.mp h4
    have h3' : (y :: rest).getLast? = some v := by
      simpa [List.getLast?_cons_cons] using h3
    have ih := route_to_reachN s (y :: rest) y v
      ⟨List.cons_ne_nil y rest, rfl, h3', hchain.2⟩
    have hstep := ReachN.step (hx ▸ hchain.1) ih
    simpa using hstep

/-! ## Measure lemmas for the BFS proof -/

theorem contains_true_iff (l : List String) (x : String) : l.contains x = true ↔ x ∈ l := by
  simp

theorem not_contains_iff (l : List String) (x : String) : (!l.contains x) = true ↔ x ∉ l := by
  simp

theorem sum_filter_sub_le (f : String → Nat) (q1 q2 : String → Bool)
    (himp : ∀ x, q1 x = true → q2 x = true) :
    ∀ l : List String, ((l.filter q1).map f).sum ≤ ((l.filter q2).map f).sum := by
  intro l
  induction l with
  | nil => simp
  | cons x xs ih =>
    rw [List.filter_cons, List.filter_cons]
    cases hq1 : q1 x with
    | true =>
      rw [himp x hq1]
      simp only [if_true, List.map_cons, List.sum_cons]
      omega
    | false =>
      cases hq2 : q2 x with
      | true =>
        simp only [Bool.false_eq_true, if_false, if_true, List.map_cons, List.sum_cons]
        omega
      | false =>
        simp only [Bool.false_eq_true, if_false]
        exact ih

theorem sum_filter_split (f : String → Nat) (q1 q2 : String → Bool) (p : String)
    (hq2p : q2 p = true) (hq1p : q1 p = false) (hagree : ∀ x, x ≠ p → q1 x = q2 x) :
    ∀ l : List String, l.Nodup → p ∈ l →
      ((l.filter q2).map f).sum = f p + ((l.filter q1).map f).sum := by
  intro l
  induction l with
  | nil => intro _ hp; cases hp
  | cons x xs ih =>
    intro hnd hp
    rw [List.nodup_cons] at hnd
    rw [List.filter_cons, List.filter_cons]
    rcases List.mem_cons.mp hp with rfl | hp
    · rw [hq2p, hq1p]
      simp only [if_true, Bool.false_eq_true, if_false, List.map_cons, List.sum_cons]
      have hsame : xs.filter q1 = xs.filter q2 := by
        apply List.filter_congr
        intro y hy
        exact hagree y (fun hcontra => hnd.1 (hcontra ▸ hy))
      rw [hsame]
    · have hxp : x ≠ p := fun hcontra => hnd.1 (hcontra ▸ hp)
      have hsteps := ih hnd.2 hp
      rw [hagree x hxp]
      cases hq2 : q2 x with
      | true =>
        simp only [if_true, List.map_cons, List.sum_cons]
        omega
      | false =>
        simp only [Bool.false_eq_true, if_false]
        exact hsteps

/-- Inserting a path into the visited set cannot increase the
unexpanded weight. -/
theorem unexpWeight_insert_le (s : Snapshot) (vis : List String) (p : String) :
    unexpWeight s (vis ++ [p]) ≤ unexpWeight s vis := by
  apply sum_filter_sub_le
  intro x hx
  rw [not_contains_iff] at hx ⊢
  exact fun hm => hx (List.mem_append_left _ hm)

/-- Expanding an existing, unvisited path removes exactly its weight
from the unexpanded weight. -/
theorem unexpWeight_insert_split (s : Snapshot) (vis : List String) (p : String)
    (hmem : p ∈ s.map Note.path) (hpv : p ∉ vis) :
    unexpWeight s vis = (1 + (adj s p).length) + unexpWeight s (vis ++ [p]) := by
  apply sum_filter_split
  · rw [not_contains_iff]; exact hpv
  · have : p ∈ vis ++ [p] := by simp
    simp [this]
  · intro x hxp
    by_cases hv : x ∈ vis
    · have h1 : x ∈ vis ++ [p] := List.mem_append_left _ hv
      simp [hv, h1]
    · have h1 : x ∉ vis ++ [p] := by
        simp only [List.mem_append, List.mem_singleton]
        rintro (h | h)
        · exact hv h
        · exact hxp h
      simp [hv, h1]
  · exact List.nodup_dedup _
  · exact List.mem_dedup.mpr hmem

/-! ## Queue and route helper lemmas for the BFS proof -/

theorem pairwise_of_all {α : Type} (R : α → α → Prop) (h : ∀ a b, R a b) :
    ∀ l : List α, l.Pairwise R := by
  intro l
  induction l with
  | nil => exact List.Pairwise.nil
  | cons x xs ih => exact List.Pairwise.cons (fun b _ => h x b) ih

theorem isRoute_extend {s : Snapshot} {r : List String} {u p x : String}
    (h : IsRoute s r u p) (hx : x ∈ adj s p) : IsRoute s (r ++ [x]) u x := by
  obtain ⟨hne, hhead, hlast, hchain⟩ := h
  refine ⟨by simp, ?_, List.getLast?_concat r, ?_⟩
  · cases r with
    | nil => exact absurd rfl hne
    | cons a as => simpa using hhead
  · rw [List.chain'_append]
    refine ⟨hchain, List.chain'_singleton x, ?_⟩
    intro a ha y hy
    have hap : a = p := by
      rw [Option.mem_def, hlast] at ha
      exact (Option.some_inj.mp ha).symm
    have hyx : x = y := by simpa using hy
    rw [hap, ← hyx]
    exact hx

theorem queue_head_min {s : Snapshot} {u t p : String} {r : List String}
    {rest : List (String × List String)} {vis : List String}
    (hinv : BfsInv s u t ((p, r) :: rest) vis) :
    ∀ e ∈ (p, r) :: rest, r.length ≤ e.2.length := by
  intro e he
  rcases List.mem_cons.mp he with rfl | he
  · exact Nat.le_refl _
  · exact (List.pairwise_cons.mp hinv.sorted).1 e he

theorem band_pop {s : Snapshot} {u t p : String} {r : List String}
    {rest : List (String × List String)} {vis : List String}
    (hinv : BfsInv s u t ((p, r) :: rest) vis) :
    ∀ a ∈ rest.head?, ∀ e ∈ rest, e.2.length ≤ a.2.length + 1 := by
  intro a ha e he
  have hamem : a ∈ rest := List.mem_of_mem_head? ha
  have h1 : r.length ≤ a.2.length := (List.pairwise_cons.mp hinv.sorted).1 a hamem
  have h2 : e.2.length ≤ r.length + 1 :=
    hinv.band (p, r) rfl e (List.mem_cons_of_mem _ he)
  omega

/-! ## Invariant preservation of the BFS loop -/

theorem bfsInv_skip {s : Snapshot} {u t p : String} {r : List String}
    {rest : List (String × List String)} {vis : List String}
    (hinv : BfsInv s u t ((p, r) :: rest) vis) (hpv : p ∈ vis) :
    BfsInv s u t rest vis where
  valid e he := hinv.valid e (List.mem_cons_of_mem _ he)
  sorted := (List.pairwise_cons.mp hinv.sorted).2
  band := band_pop hinv
  tNotVis := hinv.tNotVis
  cover := by
    intro w k hk hwv
    obtain ⟨e, he, j, ha, hlen⟩ := hinv.cover w k hk hwv
    rcases List.mem_cons.mp he with rfl | he2
    · exact absurd hpv ha.start_not_vis
    · exact ⟨e, he2, j, ha, hlen⟩

theorem bfsInv_deadend {s : Snapshot} {u t p : String} {r : List String}
    {rest : List (String × List String)} {vis : List String}
    (hinv : BfsInv s u t ((p, r) :: rest) vis) (hpt : p ≠ t) (hpv : p ∉ vis)
    (hadj : adj s p = []) :
    BfsInv s u t rest (vis ++ [p]) where
  valid e he := hinv.valid e (List.mem_cons_of_mem _ he)
  sorted := (List.pairwise_cons.mp hinv.sorted).2
  band := band_pop hinv
  tNotVis := by
    simp only [List.mem_append, List.mem_singleton]
    rintro (h | rfl)
    · exact hinv.tNotVis h
    · exact hpt rfl
  cover := by
    intro w k hk hw
    have hwv : w ∉ vis := fun h => hw (List.mem_append_left _ h)
    have hwp : w ≠ p := fun h => hw (by simp [h])
    obtain ⟨e, he, j, ha, hlen⟩ := hinv.cover w k hk hwv
    rcases areach_insert ha hwp with ⟨j2, hj2, ha2⟩ | ⟨y, hy, _, _, _⟩
    · have hep : e.1 ≠ p := fun hc => ha2.start_not_vis (by simp [hc])
      rcases List.mem_cons.mp he with heq | he2
      · exact absurd (by rw [heq]) hep
      · exact ⟨e, he2, j2, ha2, by omega⟩
    · rw [hadj] at hy
      cases hy

theorem bfsInv_expand {s : Snapshot} {u t p : String} {r : List String}
    {rest : List (String × List String)} {vis : List String} {note : Note}
    (hinv : BfsInv s u t ((p, r) :: rest) vis) (hpt : p ≠ t) (hpv : p ∉ vis)
    (hlook : lookupNote s p = some note) :
    BfsInv s u t
      (rest ++ ((note.links.map (fun l => resolveNotePath s l.target)).filter
        (fun x => !(vis ++ [p]).contains x)).map (fun x => (x, r ++ [x])))
      (vis ++ [p]) := by
  have hadj : adj s p = note.links.map (fun l => resolveNotePath s l.target) := by
    rw [adj, hlook]
  have hroute : IsRoute s r u p := hinv.valid (p, r) (List.mem_cons_self _ _)
  refine ⟨?_, ?_, ?_, ?_, ?_⟩
  · intro e he
    rcases List.mem_append.mp he with he | he
    · exact hinv.valid e (List.mem_cons_of_mem _ he)
    · obtain ⟨x, hx, rfl⟩ := List.mem_map.mp he
      have hxadj : x ∈ adj s p := by
        rw [hadj]
        exact (List.mem_filter.mp hx).1
      exact isRoute_extend hroute hxadj
  · rw [List.pairwise_append]
    refine ⟨(List.pairwise_cons.mp hinv.sorted).2, ?_, ?_⟩
    · rw [List.pairwise_map]
      exact pairwise_of_all _ (fun a b => by simp) _
    · intro a ha b hb
      obtain ⟨x, _, rfl⟩ := List.mem_map.mp hb
      have h1 : a.2.length ≤ r.length + 1 :=
        hinv.band (p, r) rfl a (List.mem_cons_of_mem _ ha)
      simpa using h1
  · intro a ha e he
    cases hrest : rest with
    | nil =>
      subst hrest
      have hamem : a ∈ ((note.links.map (fun l => resolveNotePath s l.target)).filter
          (fun x => !(vis ++ [p]).contains x)).map (fun x => (x, r ++ [x])) := by
        refine List.mem_of_mem_head? ?_
        simpa using ha
      obtain ⟨x, _, rfl⟩ := List.mem_map.mp hamem
      rcases List.mem_append.mp he with he | he
      · cases he
      · obtain ⟨y, _, rfl⟩ := List.mem_map.mp he
        simp
    | cons a0 rest' =>
      subst hrest
      have haa0 : a0 = a := by simpa using ha
      subst haa0
      have hra0 : r.length ≤ a0.2.length :=
        (List.pairwise_cons.mp hinv.sorted).1 a0 (List.mem_cons_self _ _)
      rcases List.mem_append.mp he with he | he
      · have h2 : e.2.length ≤ r.length + 1 :=
          hinv.band (p, r) rfl e (List.mem_cons_of_mem _ he)
        omega
      · obtain ⟨y, _, rfl⟩ := List.mem_map.mp he
        simp only [List.length_append, List.length_cons, List.length_nil]
        omega
  · simp only [List.mem_append, List.mem_singleton]
    rintro (h | rfl)
    · exact hinv.tNotVis h
    · exact hpt rfl
  · intro w k hk hw
    have hwv : w ∉ vis := fun h => hw (List.mem_append_left _ h)
    have hwp : w ≠ p := fun h => hw (by simp [h])
    obtain ⟨e, he, j, ha, hlen⟩ := hinv.cover w k hk hwv
    have hmin : r.length ≤ e.2.length := queue_head_min hinv e he
    rcases areach_insert ha hwp with ⟨j2, hj2, ha2⟩ | ⟨y, hy, j2, ha2, hj2⟩
    · have hep : e.1 ≠ p := fun hc => ha2.start_not_vis (by simp [hc])
      rcases List.mem_cons.mp he with heq | he2
      · exact absurd (by rw [heq]) hep
      · exact ⟨e, List.mem_append_left _ he2, j2, ha2, by omega⟩
    · rw [hadj] at hy
      have hynv : y ∉ vis ++ [p] := ha2.start_not_vis
      have hyf : y ∈ (note.links.map (fun l => resolveNotePath s l.target)).filter
          (fun x => !(vis ++ [p]).contains x) :=
        List.mem_filter.mpr ⟨hy, (not_contains_iff _ _).mpr hynv⟩
      refine ⟨(y, r ++ [y]),
        List.mem_append_right _ (List.mem_map_of_mem _ hyf), j2, ha2, ?_⟩
      simp only [List.length_append, List.length_cons, List.length_nil]
      omega

/-! ## Step equations of the BFS loop -/

theorem bfsLoop_found (s : Snapshot) (t : String) (fuel : Nat) (p : String)
    (r : List String) (rest : List (String × List String)) (vis : List String)
    (hpt : p = t) :
    bfsLoop s t (fuel + 1) ((p, r) :: rest) vis = some r := by
  rw [bfsLoop, if_pos hpt]

theorem bfsLoop_skip (s : Snapshot) (t : String) (fuel : Nat) (p : String)
    (r : List String) (rest : List (String × List String)) (vis : List String)
    (hpt : ¬ p = t) (hpv : p ∈ vis) :
    bfsLoop s t (fuel + 1) ((p, r) :: rest) vis = bfsLoop s t fuel rest vis := by
  rw [bfsLoop, if_neg hpt, if_pos hpv]

theorem bfsLoop_deadend (s : Snapshot) (t : String) (fuel : Nat) (p : String)
    (r : List String) (rest : List (String × List String)) (vis : List String)
    (hpt : ¬ p = t) (hpv : p ∉ vis) (hlook : lookupNote s p = none) :
    bfsLoop s t (fuel + 1) ((p, r) :: rest) vis = bfsLoop s t fuel rest (vis ++ [p]) := by
  rw [bfsLoop, if_neg hpt, if_neg hpv, hlook]

theorem bfsLoop_expand (s : Snapshot) (t : String) (fuel : Nat) (p : String)
    (r : List String) (rest : List (String × List String)) (vis : List String)
    (note : Note) (hpt : ¬ p = t) (hpv : p ∉ vis) (hlook : lookupNote s p = some note) :
    bfsLoop s t (fuel + 1) ((p, r) :: rest) vis =
      bfsLoop s t fuel
        (rest ++ ((note.links.map (fun l => resolveNotePath s l.target)).filter
          (fun x => !(vis ++ [p]).contains x)).map (fun x => (x, r ++ [x])))
        (vis ++ [p]) := by
  rw [bfsLoop, if_neg hpt, if_neg hpv, hlook]

/-! ## Main correctness of the BFS loop -/

theorem bfsLoop_correct (s : Snapshot) (u t : String) :
    ∀ (fuel : Nat) (q : List (String × List String)) (vis : List String),
      BfsInv s u t q vis → bfsMeasure s q vis ≤ fuel →
      (bfsLoop s t fuel q vis = none → ∀ k, ¬ ReachN s u t k) ∧
      (∀ r, bfsLoop s t fuel q vis = some r →
        IsRoute s r u t ∧ ∀ k, ReachN s u t k → r.length ≤ k + 1) := by
  intro fuel
  induction fuel with
  | zero =>
    intro q vis hinv hm
    have hq : q = [] := by
      rw [bfsMeasure] at hm
      exact List.length_eq_zero.mp (by omega)
    constructor
    · intro _ k hk
      obtain ⟨e, he, _⟩ := hinv.cover t k hk hinv.tNotVis
      rw [hq] at he
      cases he
    · intro r hr
      rw [bfsLoop] at hr
      cases hr
  | succ fuel ih =>
    intro q vis hinv hm
    cases q with
    | nil =>
      constructor
      · intro _ k hk
        obtain ⟨e, he, _⟩ := hinv.cover t k hk hinv.tNotVis
        cases he
      · intro r hr
        rw [bfsLoop] at hr
        cases hr
    | cons e0 rest =>
      obtain ⟨p, r⟩ := e0
      rw [bfsMeasure, List.length_cons] at hm
      by_cases hpt : p = t
      · have heq := bfsLoop_found s t fuel p r rest vis hpt
        constructor
        · intro hnone
          rw [heq] at hnone
          cases hnone
        · intro r2 hr2
          rw [heq] at hr2
          have hr2' : r = r2 := by injection hr2
          subst hr2'
          subst hpt
          have hroute : IsRoute s r u p := hinv.valid (p, r) (List.mem_cons_self _ _)
          refine ⟨hroute, ?_⟩
          intro k hk
          obtain ⟨e, he, j, _, hlen⟩ := hinv.cover p k hk hinv.tNotVis
          have hmin : r.length ≤ e.2.length :=
            queue_head_min hinv e he
          omega
      · by_cases hpv : p ∈ vis
        · have heq := bfsLoop_skip s t fuel p r rest vis hpt hpv
          rw [heq]
          refine ih rest vis (bfsInv_skip hinv hpv) ?_
          rw [bfsMeasure]
          omega
        · cases hlook : lookupNote s p with
          | none =>
            have hadj : adj s p = [] := by rw [adj, hlook]
            have heq := bfsLoop_deadend s t fuel p r rest vis hpt hpv hlook
            rw [heq]
            refine ih rest (vis ++ [p]) (bfsInv_deadend hinv hpt hpv hadj) ?_
            rw [bfsMeasure]
            have hwle := unexpWeight_insert_le s vis p
            omega
          | some note =>
            have heq := bfsLoop_expand s t fuel p r rest vis note hpt hpv hlook
            rw [heq]
            refine ih _ (vis ++ [p]) (bfsInv_expand hinv hpt hpv hlook) ?_
            rw [bfsMeasure]
            have hmem : p ∈ s.map Note.path := by
              have hn := List.find?_some hlook
              have hmem2 := List.mem_of_find?_eq_some hlook
              have : note.path = p := by simpa using hn
              rw [← this]
              exact List.mem_map_of_mem Note.path hmem2
            have hsplit := unexpWeight_insert_split s vis p hmem hpv
            have hadjlen : (adj s p).length = note.links.length := by
              rw [adj, hlook, List.length_map]
            have hpushlen :
                (((note.links.map (fun l => resolveNotePath s l.target)).filter
                  (fun x => !(vis ++ [p]).contains x)).map (fun x => (x, r ++ [x]))).length ≤
                  note.links.length := by
              rw [List.length_map]
              calc ((note.links.map (fun l => resolveNotePath s l.target)).filter
                    (fun x => !(vis ++ [p]).contains x)).length
                  ≤ (note.links.map (fun l => resolveNotePath s l.target)).length :=
                    List.length_filter_le _ _
                _ = note.links.length := List.length_map _ _
            rw [List.length_append]
            omega

/-! ## Correctness of `findPath` (claim C2) -/

/-- C2: for distinct ids, `findPath(from, to)` succeeds exactly when
`to` is reachable from `from` along resolved outgoing links (backlinks
are never followed), and a returned sequence is an outgoing-link route
from `from` to `to` of minimal length among all such routes; when no
route exists the result is `none`. -/
theorem findPath_spec (s : Snapshot) (u t : String) (hne : u ≠ t) :
    ((∃ r, findPath s u t = some r) ↔ ∃ r, IsRoute s r u t) ∧
      (∀ r, findPath s u t = some r →
        IsRoute s r u t ∧ ∀ r2, IsRoute s r2 u t → r.length ≤ r2.length) := by
  have hinv : BfsInv s u t [(u, [u])] [] := by
    refine ⟨?_, ?_, ?_, ?_, ?_⟩
    · intro e he
      have he2 : e = (u, [u]) := by simpa using he
      subst he2
      exact ⟨List.cons_ne_nil u [], rfl, rfl, List.chain'_singleton u⟩
    · exact List.pairwise_singleton _ _
    · intro a ha e he
      have ha2 : (u, [u]) = a := by simpa using ha
      have he2 : e = (u, [u]) := by simpa using he
      subst ha2; subst he2
      omega
    · simp
    · intro w k hk _
      refine ⟨(u, [u]), List.mem_singleton_self _, k, reachN_to_areach_nil hk, ?_⟩
      show 1 + k ≤ k + 1
      omega
  have hm : bfsMeasure s [(u, [u])] [] ≤ bfsFuel s := by
    rw [bfsMeasure, unexpWeight, bfsFuel]
    have hfilter : ((s.map Note.path).dedup).filter
        (fun p => !([] : List String).contains p) = (s.map Note.path).dedup := by
      apply List.filter_eq_self.mpr
      intro a _
      simp
    rw [hfilter]
    simp only [List.length_cons, List.length_nil]
    omega
  have hfp : findPath s u t = bfsLoop s t (bfsFuel s) [(u, [u])] [] := rfl
  obtain ⟨hnone, hsome⟩ := bfsLoop_correct s u t (bfsFuel s) [(u, [u])] [] hinv hm
  constructor
  · constructor
    · rintro ⟨r, hr⟩
      rw [hfp] at hr
      exact ⟨r, (hsome r hr).1⟩
    · rintro ⟨r2, hr2⟩
      cases hcase : findPath s u t with
      | none =>
        rw [hfp] at hcase
        exact absurd (route_to_reachN s r2 u t hr2) (hnone hcase (r2.length - 1))
      | some r => exact ⟨r, rfl⟩
  · intro r hr
    rw [hfp] at hr
    obtain ⟨hroute, hmin⟩ := hsome r hr
    refine ⟨hroute, fun r2 hr2 => ?_⟩
    have hk := route_to_reachN s r2 u t hr2
    have h1 := hmin _ hk
    have h2 : 1 ≤ r2.length := by
      cases r2 with
      | nil => exact absurd rfl hr2.1
      | cons x xs => simp
    omega

/-- Witness for `findPath_spec`: its sole hypothesis (distinct
endpoints) holds for the concrete snapshot `a.md → b.md`, and the
conclusion follows by applying the theorem there. -/
theorem findPath_spec_witness :
    ("a.md" : String) ≠ "b.md" ∧
      (((∃ r, findPath wPathSnap "a.md" "b.md" = some r) ↔
          ∃ r, IsRoute wPathSnap r "a.md" "b.md") ∧
        (∀ r, findPath wPathSnap "a.md" "b.md" = some r →
          IsRoute wPathSnap r "a.md" "b.md" ∧
            ∀ r2, IsRoute wPathSnap r2 "a.md" "b.md" → r.length ≤ r2.length)) :=
  ⟨by decide, findPath_spec wPathSnap "a.md" "b.md" (by decide)⟩

/-- Witness for `buildGraph_endpoints`: the link edge of the concrete
snapshot `danglingSnap` satisfies the amended endpoint property (its
source is a node id; the tag/folder clause is vacuous for a link
edge). -/
theorem buildGraph_endpoints_witness :
    ({ source := "a.md", target := "ghost.md", type := "internal", weight := 1 } : GraphEdge)
        ∈ (buildGraph danglingSnap).edges ∧
      (({ source := "a.md", target := "ghost.md", type := "internal", weight := 1 } :
            GraphEdge).source ∈ (buildGraph danglingSnap).nodes.map GraphNode.id ∧
        ((({ source := "a.md", target := "ghost.md", type := "internal", weight := 1 } :
              GraphEdge).type = "tagged-with" ∨
          ({ source := "a.md", target := "ghost.md", type := "internal", weight := 1 } :
              GraphEdge).type = "in-folder") →
          ({ source := "a.md", target := "ghost.md", type := "internal", weight := 1 } :
              GraphEdge).target ∈ (buildGraph danglingSnap).nodes.map GraphNode.id)) :=
  ⟨by decide, buildGraph_endpoints danglingSnap _ (by decide)⟩

/-- Witness for `getRelatedNotes_mem_snapshot`: the note `a.md` of the
concrete snapshot `relCexSnap` is returned by the traversal and is
indeed a snapshot note. -/
theorem getRelatedNotes_mem_snapshot_witness :
    plainNote "a.md" ["m1.md"] ∈ getRelatedNotes relCexSnap "s.md" 3 ∧
      plainNote "a.md" ["m1.md"] ∈ relCexSnap :=
  ⟨by decide, getRelatedNotes_mem_snapshot relCexSnap "s.md" 3 _ (by decide)⟩

end KG
